import Mathlib

/-!
Shallow embedding of the termesh drawille core (`src/drawille/mod.rs`,
`src/drawille/line.rs`, `src/drawille/utils.rs`, `src/vector3.rs`).

Machine floats (`f32`) are modelled as exact rationals (`ℚ`); `f32::round`
(round half away from zero) is `rustRound`; the `%` operator on floats
(truncating remainder, sign of the dividend) is `Int.tmod` on the rounded
integer values.  `BTreeMap` is modelled as an association list together with
a `keyList` min/max fold: the source's `btree_minmax` reads the first and
last key of the ordered map, which are exactly the minimum and maximum keys.
Operations that `unwrap()` in the source are modelled with `Option`, `none`
standing for a panic.
-/

set_option autoImplicit false
set_option maxRecDepth 2000

namespace Termesh

/-- `f32::round` in Rust: round half away from zero, exact on rationals. -/
def rustRound (q : ℚ) : ℤ := if q < 0 then -⌊-q + 1/2⌋ else ⌊q + 1/2⌋

/-- `f32::max` (on non-NaN inputs): the larger argument. -/
def rustMax (a b : ℚ) : ℚ := if a ≤ b then b else a

/-- `f32::min` (on non-NaN inputs): the smaller argument. -/
def rustMin (a b : ℚ) : ℚ := if a ≤ b then a else b

/-- `f32::abs`. -/
def rustAbs (q : ℚ) : ℚ := if q < 0 then -q else q

/-- `Vector3` from `src/vector3.rs`: three coordinates. -/
structure Vector3 where
  x : ℚ
  y : ℚ
  z : ℚ
deriving DecidableEq

namespace Vector3

/-- `impl Add for Vector3`. -/
def add (a b : Vector3) : Vector3 := ⟨a.x + b.x, a.y + b.y, a.z + b.z⟩

/-- `impl Sub for Vector3`. -/
def sub (a b : Vector3) : Vector3 := ⟨a.x - b.x, a.y - b.y, a.z - b.z⟩

/-- `impl Div<f32> for Vector3`. -/
def divS (a : Vector3) (d : ℚ) : Vector3 := ⟨a.x / d, a.y / d, a.z / d⟩

/-- `Vector3::round`: every coordinate rounded. -/
def round (a : Vector3) : Vector3 :=
  ⟨(rustRound a.x : ℚ), (rustRound a.y : ℚ), (rustRound a.z : ℚ)⟩

end Vector3

/-- The local `steps` of `Line::new`:
`dir.x.abs().max(dir.y.abs()).max(dir.z.abs())` for `dir = p1 - p0`. -/
def lineSteps (p0 p1 : Vector3) : ℚ :=
  let dir := p1.sub p0
  rustMax (rustMax (rustAbs dir.x) (rustAbs dir.y)) (rustAbs dir.z)

/-- `Line` from `src/drawille/line.rs`: start point, per-step increment and
the number of points still to be yielded (`steps : u64`). -/
structure Line where
  p0 : Vector3
  step : Vector3
  steps : ℕ
deriving DecidableEq

namespace Line

/-- `Line::new`: `steps = |Δx|.max(|Δy|).max(|Δz|)`; a zero-length line is a
single point, otherwise the increment is `Δ / steps` and
`round(steps).abs() + 1` points are yielded. -/
def new (p0 p1 : Vector3) : Line :=
  let dir := p1.sub p0
  let steps := lineSteps p0 p1
  if steps = 0 then
    ⟨p0, ⟨0, 0, 0⟩, 1⟩
  else
    ⟨p0, dir.divS steps, (rustRound steps).natAbs + 1⟩

/-- The points the `Iterator for Line` yields: emit the accumulator, advance
it by `step`, decrement `steps`, until `steps = 0`. -/
def points : ℕ → Vector3 → Vector3 → List Vector3
  | 0, _, _ => []
  | n + 1, p, step => p :: points n (p.add step) step

/-- Collect the whole (finite) iterator. -/
def toList (l : Line) : List Vector3 := points l.steps l.p0 l.step

end Line

/-- All points of `Line::new(p0, p1)`. -/
def lineList (p0 p1 : Vector3) : List Vector3 := (Line.new p0 p1).toList

/-- The three conditional swaps opening `Canvas::fill_triangle`
(src/drawille/mod.rs:191-199): swap `(p0,p1)` if `p1.y < p0.y`, then
`(p0,p2)` if `p2.y < p0.y`, then `(p1,p2)` if `p2.y < p1.y`. -/
def sortTri (p0 p1 p2 : Vector3) : Vector3 × Vector3 × Vector3 :=
  let s1 := if p1.y < p0.y then (p1, p0, p2) else (p0, p1, p2)
  let s2 := if s1.2.2.y < s1.1.y then (s1.2.2, s1.2.1, s1.1) else s1
  let s3 := if s2.2.2.y < s2.2.1.y then (s2.1, s2.2.2, s2.2.1) else s2
  s3

/-! ### The sparse dot-grid maps

`BTreeMap<i32, V>` is modelled as an association list with unique keys.
Lookup, update-or-insert (the `entry` API) and remove are `alGet`,
`alUpdate` and `alRemove`; `btree_minmax` (which reads the first and last
key of the ordered map) is modelled as the minimum and maximum of the key
list. -/

/-- `BTreeMap::get`. -/
def alGet {α : Type} (k : ℤ) : List (ℤ × α) → Option α
  | [] => none
  | (k', v) :: t => if k = k' then some v else alGet k t

/-- The `entry(k)` API: apply `f` to the current binding (or to `none` when
vacant) and store the result. -/
def alUpdate {α : Type} (k : ℤ) (f : Option α → α) : List (ℤ × α) → List (ℤ × α)
  | [] => [(k, f none)]
  | (k', v) :: t => if k = k' then (k', f (some v)) :: t else (k', v) :: alUpdate k f t

/-- `BTreeMap::remove`. -/
def alRemove {α : Type} (k : ℤ) : List (ℤ × α) → List (ℤ × α)
  | [] => []
  | (k', v) :: t => if k = k' then t else (k', v) :: alRemove k t

/-- The keys of a map. -/
def keyList {α : Type} (m : List (ℤ × α)) : List ℤ := m.map Prod.fst

/-- `btree_minmax` from `src/drawille/utils.rs`: `None` on an empty map,
otherwise the smallest and largest key (the first and last key of the
ordered `BTreeMap`). -/
def btree_minmax {α : Type} (m : List (ℤ × α)) : Option (ℤ × ℤ) :=
  match keyList m with
  | [] => none
  | k :: ks => some (ks.foldl min k, ks.foldl max k)

/-- `BRAILLE_OFFSET_MAP` from `src/drawille/mod.rs`: the 4 (rows) × 2
(columns) table of single-bit dot values. -/
def BRAILLE_OFFSET_MAP : List (List ℕ) :=
  [[0x01, 0x08],
   [0x02, 0x10],
   [0x04, 0x20],
   [0x40, 0x80]]

/-- `BRAILLE_PATTERN_BLANK` (`'\u{2800}'`) as a codepoint. -/
def BRAILLE_PATTERN_BLANK : ℕ := 0x2800

/-- `let mut xoff = x.round() % 2.0; if xoff < 0.0 { xoff += 2.0 }`
(`%` on floats truncates, keeping the dividend's sign: `Int.tmod`). -/
def xoffAt (x : ℚ) : ℤ :=
  let r := (rustRound x).tmod 2
  if r < 0 then r + 2 else r

/-- `let mut yoff = y.round() % 4.0; if yoff < 0.0 { yoff += 4.0 }`. -/
def yoffAt (y : ℚ) : ℤ :=
  let r := (rustRound y).tmod 4
  if r < 0 then r + 4 else r

/-- `braille_offset_at`: index the 4×2 table with the normalized offsets. -/
def braille_offset_at (x y : ℚ) : ℕ :=
  (BRAILLE_OFFSET_MAP.getD (yoffAt y).toNat []).getD (xoffAt x).toNat 0

/-- `Pixel`: composed braille offset plus the minimum contributing `z`. -/
structure Pixel where
  braille_offset : ℕ
  z : ℚ
deriving DecidableEq

/-- One row of the canvas: `BTreeMap<i32, Pixel>`. -/
abbrev RowMap := List (ℤ × Pixel)

/-- `Canvas`: sparse rows plus the running `(zmin, zmax)`. -/
structure Canvas where
  rows : List (ℤ × RowMap)
  zrange : Option (ℚ × ℚ)
deriving DecidableEq

namespace Canvas

/-- `Canvas::new`. -/
def new : Canvas := ⟨[], none⟩

/-- `Canvas::pos`: user space to canvas space,
`((x.round() / 2.0).floor(), (y.round() / 4.0).floor())`. -/
def pos (x y : ℚ) : ℤ × ℤ :=
  (⌊(rustRound x : ℚ) / 2⌋, ⌊(rustRound y : ℚ) / 4⌋)

/-- The `zrange` update performed by `Canvas::set`. -/
def zrangeAdd (zr : Option (ℚ × ℚ)) (z : ℚ) : Option (ℚ × ℚ) :=
  match zr with
  | none => some (z, z)
  | some (minz, maxz) => some (rustMin minz z, rustMax maxz z)

/-- `Canvas::set`: fold `p.z` into `zrange`, then OR the dot bit into the
cell's mask (creating row/cell as needed) and keep the minimum `z`. -/
def set (c : Canvas) (p : Vector3) : Canvas :=
  let cr := pos p.x p.y
  let off := braille_offset_at p.x p.y
  { rows :=
      alUpdate cr.2
        (fun orow =>
          alUpdate cr.1
            (fun opix =>
              match opix with
              | none => ⟨off, p.z⟩
              | some pix => ⟨pix.braille_offset ||| off, rustMin pix.z p.z⟩)
            (orow.getD []))
        c.rows,
    zrange := zrangeAdd c.zrange p.z }

/-- `Canvas::is_set`: is the dot bit for `(x, y)` present? -/
def is_set (c : Canvas) (x y : ℚ) : Bool :=
  let dot_index := braille_offset_at x y
  let cr := pos x y
  match (alGet cr.2 c.rows).bind (alGet cr.1) with
  | none => false
  | some pix => (pix.braille_offset &&& dot_index) != 0

/-- `Canvas::dimensions`: `None` when empty, else min/max row and the fold
of per-row min/max columns starting from `(i32::MAX, i32::MIN)` (an empty
row contributes the `unwrap_or((0, 0))` default, as in the source). -/
def dimensions (c : Canvas) : Option (ℤ × ℤ × ℤ × ℤ) :=
  (btree_minmax c.rows).map (fun mm =>
    let folded :=
      (c.rows.map (fun rv => (btree_minmax rv.2).getD (0, 0))).foldl
        (fun acc p => (min acc.1 p.1, max acc.2 p.2))
        ((2147483647 : ℤ), (-2147483648 : ℤ))
    (mm.1, mm.2, folded.1, folded.2))

/-- `Canvas::clear`: `self.rows.clear()` — `zrange` is untouched. -/
def clear (c : Canvas) : Canvas := { rows := [], zrange := c.zrange }

/-- A sequence of `set` calls. -/
def setList (c : Canvas) (ps : List Vector3) : Canvas := ps.foldl set c

/-- The stored `z` of the cell at canvas-space column `col`, row `row`. -/
def zAt (c : Canvas) (col row : ℤ) : Option ℚ :=
  ((alGet row c.rows).bind (alGet col)).map Pixel.z

end Canvas

namespace Canvas

/-- `Canvas::line`: round both endpoints, drive the stepper, `set` each
yielded point. -/
def line (c : Canvas) (p0 p1 : Vector3) : Canvas :=
  (lineList p0.round p1.round).foldl set c

/-- `Canvas::triangle_line`: like `line` but every point is drawn with the
given flat `z`. -/
def triangle_line (c : Canvas) (p0 p1 : Vector3) (z : ℚ) : Canvas :=
  (lineList p0.round p1.round).foldl (fun c p => c.set ⟨p.x, p.y, z⟩) c

/-- `Canvas::triangle`: the three wireframe edges, all at the mean depth. -/
def triangle (c : Canvas) (p0 p1 p2 : Vector3) : Canvas :=
  let midz := (p0.z + p1.z + p2.z) / 3
  (((c.triangle_line p0 p1 midz).triangle_line p0 p2 midz).triangle_line p1 p2 midz)

/-- `Canvas::fill_triangle`: sort the vertices by `y`, then three lock-step
paired-edge walks (`p0→p1` with `p0→p2`, `p2→p0` with `p2→p1`, `p1→p0`
with `p1→p2`), each pair connected by a `triangle_line` at the mean depth,
then the wireframe `triangle` on top. -/
def fill_triangle (c : Canvas) (p0 p1 p2 : Vector3) : Canvas :=
  let s := sortTri p0 p1 p2
  let midz := (s.1.z + s.2.1.z + s.2.2.z) / 3
  let c1 := ((lineList s.1 s.2.1).zip (lineList s.1 s.2.2)).foldl
    (fun c pr => c.triangle_line pr.1 pr.2 midz) c
  let c2 := ((lineList s.2.2 s.1).zip (lineList s.2.2 s.2.1)).foldl
    (fun c pr => c.triangle_line pr.1 pr.2 midz) c1
  let c3 := ((lineList s.2.1 s.1).zip (lineList s.2.1 s.2.2)).foldl
    (fun c pr => c.triangle_line pr.1 pr.2 midz) c2
  c3.triangle s.1 s.2.1 s.2.2

/-- Modelled from the spec: `Canvas::unset(x, y)` is described in the
specification (§4.2) but absent from the given sources.  Per the spec it
clears only the dot bit of `(x, y)`; if the resulting mask is 0 the cell
entry is removed; if the row becomes empty the row entry is removed; `z`
and `zrange` are not touched. -/
def unset (c : Canvas) (x y : ℚ) : Canvas :=
  let dot := braille_offset_at x y
  let cr := pos x y
  let rows' :=
    match alGet cr.2 c.rows with
    | none => c.rows
    | some row =>
      let row' :=
        match alGet cr.1 row with
        | none => row
        | some pix =>
          let mask := pix.braille_offset &&& (255 ^^^ dot)
          if mask = 0 then alRemove cr.1 row else alUpdate cr.1 (fun _ => ⟨mask, pix.z⟩) row
      if row' = [] then alRemove cr.2 c.rows else alUpdate cr.2 (fun _ => row') c.rows
  { rows := rows', zrange := c.zrange }

end Canvas

/-! ### Frame serialization (`Rows` iterator)

A serialized glyph records the optional ANSI grayscale foreground level and
the emitted codepoint; a row of output is a `List Glyph`.  The `unwrap()`
calls of `Rows::braille` (on `zrange` and on the `u8` cast) are modelled
with `Option`, `none` standing for a panic. -/

/-- One serialized character cell. -/
structure Glyph where
  gray : Option ℤ
  code : ℕ
deriving DecidableEq

/-- The grayscale level of `Rows::braille`:
`23 - round((z - zmin) / (zmax - zmin) * 19)` when the scene has depth,
`23` when `zmax == zmin`; the `u8` cast and subtraction fail (`none`)
outside `[0, 23]`. -/
def grayOf (zmin zmax z : ℚ) : Option ℤ :=
  if zmax - zmin ≠ 0 then
    let n := rustRound ((z - zmin) / (zmax - zmin) * 19)
    if 0 ≤ n ∧ n ≤ 23 then some (23 - n) else none
  else
    some 23

/-- `Rows::braille`: the braille codepoint, plus the grayscale foreground
prefix when colors are requested (`zrange.unwrap()` panics — `none` — on a
canvas whose `zrange` was never set). -/
def brailleGlyph (with_colors : Bool) (zrange : Option (ℚ × ℚ)) (pix : Pixel) : Option Glyph :=
  let code := BRAILLE_PATTERN_BLANK + pix.braille_offset
  if !with_colors then some ⟨none, code⟩
  else
    match zrange with
    | none => none
    | some zr => (grayOf zr.1 zr.2 pix.z).map (fun g => ⟨some g, code⟩)

/-- Sequence a list of fallible results, propagating a panic (`none`). -/
def optTraverse {α β : Type} (f : α → Option β) : List α → Option (List β)
  | [] => some []
  | a :: t =>
    match f a with
    | none => none
    | some b => (optTraverse f t).map (fun bs => b :: bs)

/-- `n` consecutive integers starting at `lo`. -/
def intSeq (lo : ℤ) : ℕ → List ℤ
  | 0 => []
  | n + 1 => lo :: intSeq (lo + 1) n

/-- `lo..=hi` over the integers. -/
def intRange (lo hi : ℤ) : List ℤ := intSeq lo (hi + 1 - lo).toNat

namespace Canvas

/-- One iteration of `Rows::next` for row `r`: an absent row is an empty
line; otherwise columns run from `min_col` to `max_col`, the latter
defaulting to the row's own largest stored column; an empty cell emits the
blank braille pattern with no color prefix. -/
def rowGlyphs (c : Canvas) (with_colors : Bool) (min_col : ℤ) (max_col : Option ℤ) (r : ℤ) :
    Option (List Glyph) :=
  match alGet r c.rows with
  | none => some []
  | some row =>
    let emit := fun (max_c : ℤ) =>
      (intRange min_col max_c) |> optTraverse (fun x =>
        match alGet x row with
        | none => some ⟨none, BRAILLE_PATTERN_BLANK⟩
        | some pix => brailleGlyph with_colors c.zrange pix)
    match max_col with
    | some max_c => emit max_c
    | none =>
      match btree_minmax row with
      | none => some []
      | some mm => emit mm.2

/-- `Canvas::frame`: serialize rows `min_row..=max_row`. -/
def frameList (c : Canvas) (with_colors : Bool) (min_row max_row min_col : ℤ)
    (max_col : Option ℤ) : Option (List (List Glyph)) :=
  (intRange min_row max_row) |> optTraverse (c.rowGlyphs with_colors min_col max_col)

/-- `Canvas::rows`: auto-bound to `dimensions()`, with the
`unwrap_or((i32::MAX, 0, 0, 0))` sentinel on an empty canvas, and no
`max_col` (each row is trimmed on the right individually). -/
def rowsList (c : Canvas) (with_colors : Bool) : Option (List (List Glyph)) :=
  let d := c.dimensions.getD (2147483647, 0, 0, 0)
  c.frameList with_colors d.1 d.2.1 d.2.2.1 none

end Canvas

/-! ### Claim-side definitions

Definitions in this section are written from the specification's words, to
be compared with the embedding above. -/

/-- One lock-step paired-edge walk of `fill_triangle`: zip the stepper
along `a→b` with the stepper along `a→c` and connect every pair at the
flat depth `z`. -/
def walkCalls (a b c : Vector3) (z : ℚ) : List (Vector3 × Vector3 × ℚ) :=
  ((lineList a b).zip (lineList a c)).map (fun pr => (pr.1, pr.2, z))

/-- The `triangle_line` calls `Canvas::triangle` makes: the three edges,
at the mean depth. -/
def triangleCalls (p0 p1 p2 : Vector3) : List (Vector3 × Vector3 × ℚ) :=
  [(p0, p1, (p0.z + p1.z + p2.z) / 3),
   (p0, p2, (p0.z + p1.z + p2.z) / 3),
   (p1, p2, (p0.z + p1.z + p2.z) / 3)]

/-- Replay a sequence of `triangle_line` calls on a canvas. -/
def applyCalls (c : Canvas) (calls : List (Vector3 × Vector3 × ℚ)) : Canvas :=
  calls.foldl (fun c call => c.triangle_line call.1 call.2.1 call.2.2) c

/-- The `triangle_line` call trace of `Canvas::fill_triangle` as the source
performs it: after sorting, the walk along `p0→p1`/`p0→p2`, the walk along
`p2→p0`/`p2→p1`, the walk along `p1→p0`/`p1→p2`, then the wireframe. -/
def fillTriangleCalls (p0 p1 p2 : Vector3) : List (Vector3 × Vector3 × ℚ) :=
  let s := sortTri p0 p1 p2
  let midz := (s.1.z + s.2.1.z + s.2.2.z) / 3
  walkCalls s.1 s.2.1 s.2.2 midz ++ walkCalls s.2.2 s.1 s.2.1 midz ++
    walkCalls s.2.1 s.1 s.2.2 midz ++ triangleCalls s.1 s.2.1 s.2.2

/-- The call trace the spec claims for `fill_triangle` (claim C3): exactly
two lock-step walks — `p0→p1` zipped with `p0→p2`, and `p2→p0` zipped with
`p2→p1` — followed by the wireframe, and nothing else. -/
def fillTriangleCallsClaim (p0 p1 p2 : Vector3) : List (Vector3 × Vector3 × ℚ) :=
  let s := sortTri p0 p1 p2
  let midz := (s.1.z + s.2.1.z + s.2.2.z) / 3
  walkCalls s.1 s.2.1 s.2.2 midz ++ walkCalls s.2.2 s.1 s.2.1 midz ++
    triangleCalls s.1 s.2.1 s.2.2

/-- The `z` stored after one more `set` into a cell. -/
def zCombine (o : Option ℚ) (w : ℚ) : Option ℚ :=
  some (match o with
    | none => w
    | some z => rustMin z w)

/-- The fold of `zCombine` from an empty cell: `none` for no contributions,
otherwise the running minimum. -/
def zListMin (l : List ℚ) : Option ℚ := l.foldl zCombine none

namespace Canvas

/-- The serialization the spec claims for `rows` (claim C4): every row of
the bounding box, each row's glyphs spanning from that row's **own**
minimum stored column to its own maximum stored column. -/
def rowsClaim (c : Canvas) (with_colors : Bool) : Option (List (List Glyph)) :=
  match c.dimensions with
  | none => some []
  | some d =>
    (intRange d.1 d.2.1) |> optTraverse (fun r =>
      match alGet r c.rows with
      | none => some []
      | some row =>
        match btree_minmax row with
        | none => some []
        | some mm =>
          (intRange mm.1 mm.2) |> optTraverse (fun x =>
            match alGet x row with
            | none => some ⟨none, BRAILLE_PATTERN_BLANK⟩
            | some pix => brailleGlyph with_colors c.zrange pix))

/-- The amended serialization (claim C4 corrected): every row of the
bounding box, each row's glyphs spanning from the **canvas-global**
minimum stored column to that row's own maximum stored column. -/
def rowsAmended (c : Canvas) (with_colors : Bool) : Option (List (List Glyph)) :=
  match c.dimensions with
  | none => some []
  | some d =>
    (intRange d.1 d.2.1) |> optTraverse (fun r =>
      match alGet r c.rows with
      | none => some []
      | some row =>
        match btree_minmax row with
        | none => some []
        | some mm =>
          (intRange d.2.2.1 mm.2) |> optTraverse (fun x =>
            match alGet x row with
            | none => some ⟨none, BRAILLE_PATTERN_BLANK⟩
            | some pix => brailleGlyph with_colors c.zrange pix))

/-- A canvas as `BTreeMap`s guarantee it: unique row keys and unique
column keys within each row. -/
def WF (c : Canvas) : Prop :=
  (keyList c.rows).Nodup ∧ ∀ rv ∈ c.rows, (keyList rv.2).Nodup

instance (c : Canvas) : Decidable c.WF := by
  unfold WF; exact inferInstance

end Canvas

/-! ### General lemmas -/

theorem rustMax_eq (a b : ℚ) : rustMax a b = max a b := (max_def a b).symm

theorem rustMin_eq (a b : ℚ) : rustMin a b = min a b := (min_def a b).symm

theorem rustAbs_eq (q : ℚ) : rustAbs q = |q| := by
  rcases lt_or_ge q 0 with h | h
  · simp [rustAbs, h, abs_of_neg h]
  · simp [rustAbs, not_lt.mpr h, abs_of_nonneg h]

example : lineList ⟨0, 0, 0⟩ ⟨0, 0, 0⟩ = [⟨0, 0, 0⟩] := by with_unfolding_all decide

example : lineList ⟨3, 5, 0⟩ ⟨5, 5, 0⟩ = [⟨3, 5, 0⟩, ⟨4, 5, 0⟩, ⟨5, 5, 0⟩] := by with_unfolding_all decide

example : sortTri ⟨0, 2, 0⟩ ⟨0, 1, 0⟩ ⟨0, 0, 0⟩ = (⟨0, 0, 0⟩, ⟨0, 1, 0⟩, ⟨0, 2, 0⟩) := by with_unfolding_all decide

example : Canvas.pos 0 0 = (0, 0) := by with_unfolding_all decide

example : Canvas.pos 10 4 = (5, 1) := by with_unfolding_all decide

example : braille_offset_at 0 0 = 1 := by with_unfolding_all decide

example : braille_offset_at (-1) (-1) = 0x80 := by with_unfolding_all decide

example : (Canvas.set Canvas.new ⟨0, 0, 0⟩).rows = [(0, [(0, ⟨1, 0⟩)])] := by
  with_unfolding_all decide

example : (Canvas.set Canvas.new ⟨0, 0, 0⟩).is_set 0 0 = true := by with_unfolding_all decide

example : (Canvas.set Canvas.new ⟨0, 0, 0⟩).is_set 1 0 = false := by with_unfolding_all decide

example : Canvas.new.rowsList false = some [] := by with_unfolding_all decide

example : (Canvas.mk [(0, [(0, ⟨1, 0⟩)])] (some (0, 0))).rowsList false
    = some [[⟨none, 0x2801⟩]] := by
  norm_num [Canvas.rowsList, Canvas.frameList, Canvas.rowGlyphs, Canvas.dimensions,
    btree_minmax, keyList, intRange, intSeq, alGet, brailleGlyph, grayOf, rustRound,
    BRAILLE_PATTERN_BLANK, optTraverse, min_def, max_def]

example : (Canvas.mk [(0, [(0, ⟨1, 0⟩)])] (some (0, 0))).rowsList true
    = some [[⟨some 23, 0x2801⟩]] := by
  norm_num [Canvas.rowsList, Canvas.frameList, Canvas.rowGlyphs, Canvas.dimensions,
    btree_minmax, keyList, intRange, intSeq, alGet, brailleGlyph, grayOf, rustRound,
    BRAILLE_PATTERN_BLANK, optTraverse, min_def, max_def]

example :
    (Canvas.unset (Canvas.set Canvas.new ⟨0, 0, 0⟩) 0 0).rows = [] := by
  with_unfolding_all decide


theorem tmod_bounds (a : ℤ) {b : ℤ} (hb : 0 < b) : -b < a.tmod b ∧ a.tmod b < b := by
  refine ⟨?_, Int.tmod_lt_of_pos a hb⟩
  cases a with
  | ofNat m =>
    exact lt_of_lt_of_le (by linarith) (Int.tmod_nonneg b (Int.ofNat_nonneg m))
  | negSucc m =>
    lift b to ℕ using hb.le with n
    have hn0 : 0 < n := by exact_mod_cast hb
    have hdef : Int.tmod (Int.negSucc m) (Int.ofNat n) = -Int.ofNat ((m + 1) % n) := rfl
    have hlt : (m + 1) % n < n := Nat.mod_lt _ hn0
    show -(n : ℤ) < Int.tmod (Int.negSucc m) (Int.ofNat n)
    rw [hdef, Int.ofNat_eq_natCast]
    omega

theorem perm3_acb (a b c : Vector3) : [a, c, b].Perm [a, b, c] :=
  List.Perm.cons a (List.Perm.swap b c [])

theorem perm3_bac (a b c : Vector3) : [b, a, c].Perm [a, b, c] :=
  List.Perm.swap a b [c]

theorem perm3_bca (a b c : Vector3) : [b, c, a].Perm [a, b, c] :=
  (List.Perm.cons b (List.Perm.swap a c [])).trans (List.Perm.swap a b [c])

theorem perm3_cab (a b c : Vector3) : [c, a, b].Perm [a, b, c] :=
  (List.Perm.swap a c [b]).trans (List.Perm.cons a (List.Perm.swap b c []))

theorem perm3_cba (a b c : Vector3) : [c, b, a].Perm [a, b, c] :=
  (List.Perm.cons c (List.Perm.swap a b [])).trans (perm3_cab a b c)

theorem optTraverse_congr {α β : Type} {f g : α → Option β} :
    ∀ {l : List α}, (∀ a ∈ l, f a = g a) → optTraverse f l = optTraverse g l
  | [], _ => rfl
  | a :: t, h => by
    have ht := optTraverse_congr (fun x hx => h x (List.mem_cons_of_mem a hx))
    simp only [optTraverse, h a (List.mem_cons_self a t), ht]

theorem optTraverse_some_const {α β : Type} (b : β) :
    ∀ l : List α, optTraverse (fun _ => some b) l = some (l.map fun _ => b)
  | [] => rfl
  | a :: t => by simp [optTraverse, optTraverse_some_const b t]

/-! ### Claim C10 -/

/-- C10: `clear()` empties the row/column/pixel storage but leaves the
running `(zmin, zmax)` depth range unchanged, so a `set` after `clear`
still folds its `z` into the range contributed before the `clear`. -/
theorem c10_clear_keeps_zrange (c : Canvas) (p : Vector3) :
    c.clear.rows = [] ∧ c.clear.zrange = c.zrange ∧
    (c.clear.set p).zrange = Canvas.zrangeAdd c.zrange p.z :=
  ⟨rfl, rfl, rfl⟩

/-! ### Claim C8 -/

theorem rowGlyphs_new (wc : Bool) (minc : ℤ) (mc : Option ℤ) (r : ℤ) :
    Canvas.new.rowGlyphs wc minc mc r = some [] := rfl

/-- C8 (amended): on the empty canvas `dimensions()` is `None`, `rows()`
is the empty sequence of lines, and `frame(...)` is one *empty line per
requested row* (so an empty sequence only when the requested row range is
empty); none of the three panics (all return `some`). -/
theorem c8_empty_canvas (wc : Bool) (minr maxr minc : ℤ) (mc : Option ℤ) :
    Canvas.new.dimensions = none ∧
    Canvas.new.rowsList wc = some [] ∧
    Canvas.new.frameList wc minr maxr minc mc =
      some ((intRange minr maxr).map fun _ => ([] : List Glyph)) := by
  refine ⟨rfl, ?_, ?_⟩
  · show Canvas.new.frameList wc 2147483647 0 0 none = some []
    have : intRange 2147483647 0 = [] := by norm_num [intRange, intSeq]
    simp [Canvas.frameList, this, optTraverse]
  · unfold Canvas.frameList
    rw [show ((intRange minr maxr) |> optTraverse (Canvas.new.rowGlyphs wc minc mc)) =
        optTraverse (fun _ => some ([] : List Glyph)) (intRange minr maxr) from
      optTraverse_congr (fun r _ => rowGlyphs_new wc minc mc r)]
    exact optTraverse_some_const _ _

/-- C8 counterexample: the claim says `frame()` on an empty canvas returns
an *empty sequence of lines*; but `frame(false, 0, 0, 0, None)` on the
empty canvas returns one line (which is itself empty), not zero lines. -/
theorem c8_counterexample :
    Canvas.new.frameList false 0 0 0 none = some [[]] ∧
    (some [[]] : Option (List (List Glyph))) ≠ some [] := by
  exact ⟨by with_unfolding_all decide, by simp⟩

/-! ### Claim C9 -/

/-- C9: quantization computes the cell as
`(floor(round(x)/2), floor(round(y)/4))`; the sub-cell offsets
(`round(x) mod 2`, `round(y) mod 4`, normalized into `[0,2)` and `[0,4)`
when negative) are always in bounds for the 4×2 dot table, and the lookup
returns one of the 8 distinct single-bit values — in particular a nonzero
mask. -/
theorem xoffAt_bounds (x : ℚ) : 0 ≤ xoffAt x ∧ xoffAt x < 2 := by
  have hx2 := tmod_bounds (rustRound x) (b := 2) (by norm_num)
  simp only [xoffAt]; split_ifs with h <;> omega

theorem yoffAt_bounds (y : ℚ) : 0 ≤ yoffAt y ∧ yoffAt y < 4 := by
  have hy4 := tmod_bounds (rustRound y) (b := 4) (by norm_num)
  simp only [yoffAt]; split_ifs with h <;> omega

theorem braille_offset_mem (x y : ℚ) :
    braille_offset_at x y ∈ [1, 2, 4, 8, 0x10, 0x20, 0x40, 0x80] := by
  have hx := xoffAt_bounds x
  have hy := yoffAt_bounds y
  have hxn : (xoffAt x).toNat = 0 ∨ (xoffAt x).toNat = 1 := by omega
  have hyn : (yoffAt y).toNat = 0 ∨ (yoffAt y).toNat = 1 ∨
      (yoffAt y).toNat = 2 ∨ (yoffAt y).toNat = 3 := by omega
  unfold braille_offset_at BRAILLE_OFFSET_MAP
  rcases hxn with h1 | h1 <;> rcases hyn with h2 | h2 | h2 | h2 <;>
    rw [h1, h2] <;> decide

theorem c9_quantization_in_bounds (x y : ℚ) :
    Canvas.pos x y = (⌊(rustRound x : ℚ) / 2⌋, ⌊(rustRound y : ℚ) / 4⌋) ∧
    (0 ≤ xoffAt x ∧ xoffAt x < 2) ∧ (0 ≤ yoffAt y ∧ yoffAt y < 4) ∧
    braille_offset_at x y ∈ [1, 2, 4, 8, 0x10, 0x20, 0x40, 0x80] ∧
    braille_offset_at x y ≠ 0 ∧
    ([1, 2, 4, 8, 0x10, 0x20, 0x40, 0x80] : List ℕ).Nodup := by
  refine ⟨rfl, xoffAt_bounds x, yoffAt_bounds y, braille_offset_mem x y, ?_, by decide⟩
  have h := braille_offset_mem x y
  simp only [List.mem_cons, List.not_mem_nil, or_false] at h
  rcases h with h | h | h | h | h | h | h | h <;> rw [h] <;> decide

/-! ### Claim C2 -/

/-- C2 (amended): `fill_triangle` begins with a three-way compare-and-swap
that reorders the vertices so that `p0` is the vertex with the **least**
`y`, `p2` the vertex with the **greatest** `y`, and `p1` the one in
between (the spec has the direction backwards). -/
theorem c2_sort_ascending (p0 p1 p2 : Vector3) :
    (sortTri p0 p1 p2).1.y ≤ (sortTri p0 p1 p2).2.1.y ∧
    (sortTri p0 p1 p2).2.1.y ≤ (sortTri p0 p1 p2).2.2.y ∧
    [(sortTri p0 p1 p2).1, (sortTri p0 p1 p2).2.1, (sortTri p0 p1 p2).2.2].Perm
      [p0, p1, p2] := by
  unfold sortTri
  rcases em (p1.y < p0.y) with h1 | h1
  · simp only [if_pos h1]
    rcases em (p2.y < p1.y) with h2 | h2
    · simp only [if_pos h2]
      rcases em (p1.y < p0.y) with h3 | h3
      · simp only [if_pos h3]
        exact ⟨by linarith, by linarith, perm3_cba p0 p1 p2⟩
      · exact (h3 h1).elim
    · simp only [if_neg h2]
      rcases em (p2.y < p0.y) with h3 | h3
      · simp only [if_pos h3]
        exact ⟨by linarith, by linarith, perm3_bca p0 p1 p2⟩
      · simp only [if_neg h3]
        exact ⟨by linarith, by linarith, perm3_bac p0 p1 p2⟩
  · simp only [if_neg h1]
    rcases em (p2.y < p0.y) with h2 | h2
    · simp only [if_pos h2]
      rcases em (p0.y < p1.y) with h3 | h3
      · simp only [if_pos h3]
        exact ⟨by linarith, by linarith, perm3_cab p0 p1 p2⟩
      · simp only [if_neg h3]
        exact ⟨by linarith, by linarith, perm3_cba p0 p1 p2⟩
    · simp only [if_neg h2]
      rcases em (p2.y < p1.y) with h3 | h3
      · simp only [if_pos h3]
        exact ⟨by linarith, by linarith, perm3_acb p0 p1 p2⟩
      · simp only [if_neg h3]
        exact ⟨by linarith, by linarith, List.Perm.refl _⟩

/-- C2 counterexample: on the already-ascending input
`p0 = (0,0,0)`, `p1 = (0,1,0)`, `p2 = (0,2,0)` the reorder is the
identity, so the resulting `p0` has the *least* y (0), not the greatest
(2), refuting "p0 is the vertex with the greatest y, p2 the least". -/
theorem c2_counterexample :
    sortTri ⟨0, 0, 0⟩ ⟨0, 1, 0⟩ ⟨0, 2, 0⟩ = (⟨0, 0, 0⟩, ⟨0, 1, 0⟩, ⟨0, 2, 0⟩) ∧
    (sortTri ⟨0, 0, 0⟩ ⟨0, 1, 0⟩ ⟨0, 2, 0⟩).1.y <
      (sortTri ⟨0, 0, 0⟩ ⟨0, 1, 0⟩ ⟨0, 2, 0⟩).2.2.y := by
  constructor
  · with_unfolding_all decide
  · with_unfolding_all decide

/-! ### Claim C5 -/

theorem points_length (s : Vector3) : ∀ (n : ℕ) (p : Vector3), (Line.points n p s).length = n
  | 0, _ => rfl
  | n + 1, p => by simp [Line.points, points_length s n (p.add s)]

theorem points_get_succ (s : Vector3) :
    ∀ (n : ℕ) (p : Vector3) (i : ℕ), i + 1 < n →
      (Line.points n p s).get? (i + 1) = ((Line.points n p s).get? i).map (fun q => q.add s)
  | 0, _, _, h => absurd h (by omega)
  | n + 1, p, 0, h => by
    match n, h with
    | m + 1, _ => rfl
  | n + 1, p, i + 1, h => by
    have ih := points_get_succ s n (p.add s) i (by omega)
    simpa [Line.points] using ih

theorem lineSteps_nonneg (p0 p1 : Vector3) : 0 ≤ lineSteps p0 p1 := by
  simp only [lineSteps, rustMax_eq, rustAbs_eq]
  positivity

/-- C5: if `max(|Δx|,|Δy|,|Δz|) == 0` the stepper yields exactly one point,
`p0` itself; otherwise it yields exactly `round(steps) + 1` points
(`round(steps).abs() + 1` in the source — equal, since `steps > 0` makes
the rounding nonnegative), starting at `p0` and advancing by the constant
increment `Δ / steps` at every step. -/
theorem c5_line_point_count (p0 p1 : Vector3) :
    (lineSteps p0 p1 = 0 → lineList p0 p1 = [p0]) ∧
    (lineSteps p0 p1 ≠ 0 →
      0 ≤ rustRound (lineSteps p0 p1) ∧
      (lineList p0 p1).length = (rustRound (lineSteps p0 p1)).natAbs + 1 ∧
      (lineList p0 p1).get? 0 = some p0 ∧
      ∀ i : ℕ, i + 1 < (lineList p0 p1).length →
        (lineList p0 p1).get? (i + 1) =
          ((lineList p0 p1).get? i).map
            (fun q => q.add ((p1.sub p0).divS (lineSteps p0 p1)))) := by
  constructor
  · intro h0
    simp only [lineList, Line.new, Line.toList, h0, if_pos rfl]
    rfl
  · intro hne
    have hpos : 0 < lineSteps p0 p1 := lt_of_le_of_ne (lineSteps_nonneg p0 p1) (Ne.symm hne)
    have hround : 0 ≤ rustRound (lineSteps p0 p1) := by
      simp only [rustRound, if_neg (not_lt.mpr hpos.le)]
      exact Int.floor_nonneg.mpr (by linarith)
    have hnew : Line.new p0 p1 =
        ⟨p0, (p1.sub p0).divS (lineSteps p0 p1), (rustRound (lineSteps p0 p1)).natAbs + 1⟩ := by
      simp only [Line.new, if_neg hne]
    refine ⟨hround, ?_, ?_, ?_⟩
    · simp only [lineList, Line.toList, hnew, points_length]
    · simp only [lineList, Line.toList, hnew, Line.points, List.get?]
    · intro i hi
      simp only [lineList, Line.toList, hnew] at hi ⊢
      exact points_get_succ _ _ _ i (by simpa [points_length] using hi)

/-- C5 witness: for `p0 = (0,0,0)`, `p1 = (2,0,0)` the stepper is
non-degenerate, yields `round(2) + 1 = 3` points, and steps by `Δ/steps`. -/
theorem c5_witness :
    lineSteps ⟨0, 0, 0⟩ ⟨2, 0, 0⟩ ≠ 0 ∧
    (lineList ⟨0, 0, 0⟩ ⟨2, 0, 0⟩).length = 3 ∧
    (lineList ⟨0, 0, 0⟩ ⟨2, 0, 0⟩).get? 1 =
      ((lineList ⟨0, 0, 0⟩ ⟨2, 0, 0⟩).get? 0).map
        (fun q => q.add ((Vector3.sub ⟨2, 0, 0⟩ ⟨0, 0, 0⟩).divS (lineSteps ⟨0, 0, 0⟩ ⟨2, 0, 0⟩))) := by
  have hne : lineSteps (⟨0, 0, 0⟩ : Vector3) ⟨2, 0, 0⟩ ≠ 0 := by with_unfolding_all decide
  obtain ⟨-, h⟩ := c5_line_point_count ⟨0, 0, 0⟩ ⟨2, 0, 0⟩
  obtain ⟨-, hlen, -, hstep⟩ := h hne
  have h3 : (lineList ⟨0, 0, 0⟩ ⟨2, 0, 0⟩).length = 3 := by
    rw [hlen]; with_unfolding_all decide
  exact ⟨hne, h3, hstep 0 (by rw [h3]; omega)⟩

/-! ### Claim C1 -/

theorem alGet_alUpdate_self {α : Type} (k : ℤ) (f : Option α → α) :
    ∀ l : List (ℤ × α), alGet k (alUpdate k f l) = some (f (alGet k l))
  | [] => by simp [alGet, alUpdate]
  | (k', v) :: t => by
    by_cases h : k = k' <;>
      simp [alGet, alUpdate, h, alGet_alUpdate_self k f t]

theorem zAt_set (c : Canvas) (p : Vector3) (col row : ℤ)
    (h : Canvas.pos p.x p.y = (col, row)) :
    (c.set p).zAt col row = zCombine (c.zAt col row) p.z := by
  simp only [Canvas.set, Canvas.zAt, h, alGet_alUpdate_self, Option.some_bind]
  cases hrow : alGet row c.rows with
  | none => simp [alGet, alUpdate, alGet_alUpdate_self, zCombine]
  | some rowm =>
    simp only [Option.getD_some, alGet_alUpdate_self, Option.some_bind]
    cases hpix : alGet col rowm <;> simp [zCombine]

theorem zAt_setList (ps : List Vector3) (c : Canvas) (col row : ℤ)
    (h : ∀ p ∈ ps, Canvas.pos p.x p.y = (col, row)) :
    (c.setList ps).zAt col row = (ps.map Vector3.z).foldl zCombine (c.zAt col row) := by
  induction ps generalizing c with
  | nil => rfl
  | cons p t ih =>
    have hp := h p (List.mem_cons_self p t)
    have ht := fun q hq => h q (List.mem_cons_of_mem p hq)
    simp only [Canvas.setList, List.foldl_cons, List.map_cons]
    rw [show (t.foldl Canvas.set (c.set p)) = (c.set p).setList t from rfl,
      ih (c.set p) ht, zAt_set c p col row hp]

theorem zCombine_right_comm (o : Option ℚ) (w1 w2 : ℚ) :
    zCombine (zCombine o w1) w2 = zCombine (zCombine o w2) w1 := by
  cases o <;> simp [zCombine, rustMin_eq, min_comm, min_assoc, min_left_comm]

theorem foldl_zCombine_some : ∀ (l : List ℚ) (a : ℚ),
    l.foldl zCombine (some a) = some (l.foldl rustMin a)
  | [], _ => rfl
  | w :: t, a => by
    simp only [List.foldl_cons, zCombine, foldl_zCombine_some t]

theorem foldl_rustMin_spec : ∀ (t : List ℚ) (a : ℚ),
    (t.foldl rustMin a) ∈ a :: t ∧ ∀ w ∈ a :: t, t.foldl rustMin a ≤ w
  | [], a => by simp
  | w :: t, a => by
    obtain ⟨hmem, hle⟩ := foldl_rustMin_spec t (rustMin a w)
    have hmin : rustMin a w = a ∨ rustMin a w = w := by
      rw [rustMin_eq]; exact min_choice a w
    constructor
    · simp only [List.foldl_cons]
      rcases List.mem_cons.mp hmem with hh | hh
      · rcases hmin with h | h <;> rw [hh, h] <;> simp
      · simp [List.mem_cons_of_mem, hh]
    · intro u hu
      simp only [List.foldl_cons]
      have hminle : t.foldl rustMin (rustMin a w) ≤ rustMin a w :=
        hle _ (List.mem_cons_self _ t)
      rcases List.mem_cons.mp hu with rfl | hu'
      · exact le_trans hminle (by rw [rustMin_eq]; exact min_le_left _ _)
      · rcases List.mem_cons.mp hu' with rfl | hu''
        · exact le_trans hminle (by rw [rustMin_eq]; exact min_le_right _ _)
        · exact hle _ (List.mem_cons_of_mem _ hu'')

/-- C1: for every sequence of `set(p)` calls whose points quantize to the
same canvas cell, the `z` stored in that cell equals the minimum of the `z`
values of all contributing points, independent of the order of the calls
(any permutation of the sequence stores the same `z`). -/
theorem c1_cell_z_is_min (ps ps' : List Vector3) (col row : ℤ)
    (hall : ∀ p ∈ ps, Canvas.pos p.x p.y = (col, row)) (hperm : ps.Perm ps') :
    (Canvas.setList Canvas.new ps).zAt col row = zListMin (ps.map Vector3.z) ∧
    (Canvas.setList Canvas.new ps').zAt col row = zListMin (ps.map Vector3.z) ∧
    (ps ≠ [] → ∃ m, zListMin (ps.map Vector3.z) = some m ∧
      m ∈ ps.map Vector3.z ∧ ∀ w ∈ ps.map Vector3.z, m ≤ w) := by
  have hall' : ∀ p ∈ ps', Canvas.pos p.x p.y = (col, row) :=
    fun p hp => hall p (hperm.symm.subset hp)
  have hnew : Canvas.new.zAt col row = none := rfl
  have h1 : (Canvas.setList Canvas.new ps).zAt col row = zListMin (ps.map Vector3.z) := by
    rw [zAt_setList ps Canvas.new col row hall, hnew]; rfl
  have hfold : (ps'.map Vector3.z).foldl zCombine none =
      (ps.map Vector3.z).foldl zCombine none :=
    ((hperm.map Vector3.z).foldl_eq'
      (fun x _ y _ z => zCombine_right_comm z x y) none).symm
  have h2 : (Canvas.setList Canvas.new ps').zAt col row = zListMin (ps.map Vector3.z) := by
    rw [zAt_setList ps' Canvas.new col row hall', hnew]
    exact hfold
  refine ⟨h1, h2, fun hne => ?_⟩
  obtain ⟨p, t, rfl⟩ := List.exists_cons_of_ne_nil hne
  simp only [List.map_cons, zListMin, List.foldl_cons]
  rw [show zCombine none p.z = some p.z from rfl, foldl_zCombine_some]
  obtain ⟨hmem, hle⟩ := foldl_rustMin_spec (t.map Vector3.z) p.z
  exact ⟨_, rfl, hmem, hle⟩

/-- C1 witness: setting `(0,0,5)` then `(1,0,2)` (both in cell `(0,0)`)
stores `z = 2`, and the reversed order stores the same. -/
theorem c1_witness :
    (Canvas.setList Canvas.new [⟨0, 0, 5⟩, ⟨1, 0, 2⟩]).zAt 0 0 =
      zListMin ([⟨0, 0, 5⟩, ⟨1, 0, 2⟩].map Vector3.z) ∧
    (Canvas.setList Canvas.new [⟨1, 0, 2⟩, ⟨0, 0, 5⟩]).zAt 0 0 =
      zListMin ([⟨0, 0, 5⟩, ⟨1, 0, 2⟩].map Vector3.z) ∧
    zListMin ([(⟨0, 0, 5⟩ : Vector3), ⟨1, 0, 2⟩].map Vector3.z) = some 2 := by
  have h := c1_cell_z_is_min [⟨0, 0, 5⟩, ⟨1, 0, 2⟩] [⟨1, 0, 2⟩, ⟨0, 0, 5⟩] 0 0
    (by intro p hp; fin_cases hp <;> with_unfolding_all decide)
    (List.Perm.swap _ _ _)
  exact ⟨h.1, h.2.1, by with_unfolding_all decide⟩

/-! ### Claim C3 -/

/-- C3 (amended): after vertex reordering, `fill_triangle` is exactly the
replay of *three* lock-step paired-edge walks — `p0→p1` zipped with
`p0→p2`, `p2→p0` zipped with `p2→p1`, and `p1→p0` zipped with `p1→p2` —
each pair connected by a line at the flat mean depth, followed by the
wireframe triangle, and nothing else (the spec lists only the first two
walks). -/
theorem c3_fill_triangle_trace (c : Canvas) (p0 p1 p2 : Vector3) :
    c.fill_triangle p0 p1 p2 = applyCalls c (fillTriangleCalls p0 p1 p2) := by
  simp only [Canvas.fill_triangle, fillTriangleCalls, applyCalls, walkCalls, triangleCalls,
    Canvas.triangle, List.foldl_append, List.foldl_map, List.foldl_cons, List.foldl_nil]

/-- C3 counterexample: on the triangle `(0,0,0), (0,1,0), (0,2,0)` the call
trace of `fill_triangle` is not the two-walk trace the spec describes (the
middle walk `p1→p0`/`p1→p2` is missing from the spec's account). -/
theorem c3_counterexample :
    fillTriangleCalls ⟨0, 0, 0⟩ ⟨0, 1, 0⟩ ⟨0, 2, 0⟩ ≠
      fillTriangleCallsClaim ⟨0, 0, 0⟩ ⟨0, 1, 0⟩ ⟨0, 2, 0⟩ := by
  with_unfolding_all decide

/-! ### Claim C4 -/

theorem dimensions_none_iff (c : Canvas) : c.dimensions = none ↔ c.rows = [] := by
  unfold Canvas.dimensions btree_minmax keyList
  cases c.rows <;> simp

/-- C4 (amended): for every Canvas, `rows(withColor)` serializes every row
index in `[minRow, maxRow]` of `dimensions()`, and each emitted row's
glyphs span from the **canvas-global minimum stored column** (the `minCol`
of `dimensions()`) to that row's own maximum stored column — rows are
trimmed independently on the right only, the left edge is global (the spec
says each row starts at its own minimum column). -/
theorem c4_rows_serialization (c : Canvas) (wc : Bool) :
    c.rowsList wc = c.rowsAmended wc := by
  cases hdim : c.dimensions with
  | none =>
    have hrows : c.rows = [] := (dimensions_none_iff c).mp hdim
    have hrange : intRange 2147483647 0 = [] := by norm_num [intRange, intSeq]
    simp [Canvas.rowsList, Canvas.rowsAmended, hdim, Canvas.frameList, hrange, optTraverse]
  | some d =>
    simp only [Canvas.rowsList, hdim, Option.getD_some, Canvas.rowsAmended, Canvas.frameList]
    apply optTraverse_congr
    intro r _
    unfold Canvas.rowGlyphs
    cases halr : alGet r c.rows with
    | none => simp
    | some rowm =>
      cases hbm : btree_minmax rowm <;> simp

/-- C4 counterexample: a canvas with pixels in cell `(col 5, row 0)` and
cell `(col 0, row 1)`; the emitted row 0 spans columns 0..5 (global
minimum column to the row's own maximum), not 5..5 as the claim's
per-row-minimum trimming would produce. -/
theorem c4_counterexample :
    (Canvas.mk [(0, [(5, ⟨1, 0⟩)]), (1, [(0, ⟨1, 0⟩)])] (some (0, 0))).rowsList false ≠
      (Canvas.mk [(0, [(5, ⟨1, 0⟩)]), (1, [(0, ⟨1, 0⟩)])] (some (0, 0))).rowsClaim false := by
  have h1 : (Canvas.mk [(0, [(5, ⟨1, 0⟩)]), (1, [(0, ⟨1, 0⟩)])] (some (0, 0))).rowsList false =
      some [[⟨none, 0x2800⟩, ⟨none, 0x2800⟩, ⟨none, 0x2800⟩, ⟨none, 0x2800⟩, ⟨none, 0x2800⟩,
        ⟨none, 0x2801⟩], [⟨none, 0x2801⟩]] := by
    norm_num [Canvas.rowsList, Canvas.frameList, Canvas.rowGlyphs, Canvas.dimensions,
      btree_minmax, keyList, intRange, intSeq, alGet, brailleGlyph, grayOf, rustRound,
      BRAILLE_PATTERN_BLANK, optTraverse, min_def, max_def]
  have h2 : (Canvas.mk [(0, [(5, ⟨1, 0⟩)]), (1, [(0, ⟨1, 0⟩)])] (some (0, 0))).rowsClaim false =
      some [[⟨none, 0x2801⟩], [⟨none, 0x2801⟩]] := by
    norm_num [Canvas.rowsClaim, Canvas.dimensions,
      btree_minmax, keyList, intRange, intSeq, alGet, brailleGlyph, grayOf, rustRound,
      BRAILLE_PATTERN_BLANK, optTraverse, min_def, max_def]
  rw [h1, h2]
  simp

/-! ### Claim C7 -/

/-- C7 (amended): with colors, every occupied cell's grayscale level comes
from normalizing `pixel.z` as `(z - zmin)/(zmax - zmin)` onto the 24-level
ANSI grayscale ramp (indices 0–23, where a larger index is brighter:
`AnsiValue::grayscale(n)` is palette entry `232 + n`).  The **darkest**
four steps (0–3) are reserved and never emitted — the emitted level always
lies in `[4, 23]` — and when `zmax == zmin` the constant "closest" level is
23, the *brightest* step of the ramp (the spec has the reserved end
backwards). -/
theorem c7_grayscale_range (zmin zmax : ℚ) (pix : Pixel)
    (h1 : zmin ≤ pix.z) (h2 : pix.z ≤ zmax) :
    ∃ g : ℤ, brailleGlyph true (some (zmin, zmax)) pix =
        some ⟨some g, BRAILLE_PATTERN_BLANK + pix.braille_offset⟩ ∧
      4 ≤ g ∧ g ≤ 23 ∧ (zmax = zmin → g = 23) := by
  by_cases hz : zmax - zmin = 0
  · exact ⟨23, by simp [brailleGlyph, grayOf, hz], by norm_num, le_refl _, fun _ => rfl⟩
  · have hlt : zmin < zmax := by
      rcases lt_or_eq_of_le (le_trans h1 h2) with h | h
      · exact h
      · exact absurd (by rw [h]; ring) hz
    have ht0 : 0 ≤ (pix.z - zmin) / (zmax - zmin) := div_nonneg (by linarith) (by linarith)
    have ht1 : (pix.z - zmin) / (zmax - zmin) ≤ 1 := (div_le_one (by linarith)).mpr (by linarith)
    have hq0 : 0 ≤ (pix.z - zmin) / (zmax - zmin) * 19 := by positivity
    have hq19 : (pix.z - zmin) / (zmax - zmin) * 19 ≤ 19 := by nlinarith
    have hn0 : 0 ≤ rustRound ((pix.z - zmin) / (zmax - zmin) * 19) := by
      simp only [rustRound, if_neg (not_lt.mpr hq0)]
      exact Int.floor_nonneg.mpr (by linarith)
    have hn19 : rustRound ((pix.z - zmin) / (zmax - zmin) * 19) ≤ 19 := by
      simp only [rustRound, if_neg (not_lt.mpr hq0)]
      have h20 : ((pix.z - zmin) / (zmax - zmin) * 19 + 1/2 : ℚ) < ((20 : ℤ) : ℚ) := by
        push_cast; linarith
      have := Int.floor_lt.mpr h20
      omega
    refine ⟨23 - rustRound ((pix.z - zmin) / (zmax - zmin) * 19), ?_, by omega, by omega,
      fun he => absurd (by rw [he]; ring) hz⟩
    have hguard : 0 ≤ rustRound ((pix.z - zmin) / (zmax - zmin) * 19) ∧
        rustRound ((pix.z - zmin) / (zmax - zmin) * 19) ≤ 23 := ⟨hn0, by omega⟩
    simp [brailleGlyph, grayOf, hz, hguard.1, hguard.2]

/-- C7 witness: a pixel at `z = 0` in the range `[0, 1]` gets a grayscale
level in `[4, 23]`. -/
theorem c7_witness :
    ∃ g : ℤ, brailleGlyph true (some (0, 1)) ⟨1, (0 : ℚ)⟩ =
        some ⟨some g, BRAILLE_PATTERN_BLANK + 1⟩ ∧
      4 ≤ g ∧ g ≤ 23 ∧ ((1 : ℚ) = 0 → g = 23) :=
  c7_grayscale_range 0 1 ⟨1, 0⟩ (by norm_num) (by norm_num)

/-- C7 counterexample: the claim says the *brightest* few steps of the
24-level ramp are reserved and never emitted; but a single-depth scene
emits level 23 — `AnsiValue::grayscale(23)`, palette entry 255, the
brightest step of the ramp.  (It is the darkest four steps 0–3 that are
never emitted.) -/
theorem c7_counterexample :
    (Canvas.mk [(0, [(0, ⟨1, 0⟩)])] (some (0, 0))).rowsList true =
      some [[⟨some 23, 0x2801⟩]] := by
  norm_num [Canvas.rowsList, Canvas.frameList, Canvas.rowGlyphs, Canvas.dimensions,
    btree_minmax, keyList, intRange, intSeq, alGet, brailleGlyph, grayOf, rustRound,
    BRAILLE_PATTERN_BLANK, optTraverse, min_def, max_def]

/-! ### Claim C6 -/

theorem alGet_none_of_not_mem {α : Type} (k : ℤ) :
    ∀ l : List (ℤ × α), k ∉ keyList l → alGet k l = none
  | [], _ => rfl
  | (k', v) :: t, h => by
    simp only [keyList, List.map_cons, List.mem_cons, not_or] at h
    simp only [alGet, if_neg h.1]
    exact alGet_none_of_not_mem k t (by simpa [keyList] using h.2)

theorem alGet_alRemove_self {α : Type} (k : ℤ) :
    ∀ l : List (ℤ × α), (keyList l).Nodup → alGet k (alRemove k l) = none
  | [], _ => rfl
  | (k', v) :: t, h => by
    simp only [keyList, List.map_cons, List.nodup_cons] at h
    by_cases he : k = k'
    · subst he
      simp only [alRemove, if_pos rfl]
      exact alGet_none_of_not_mem k t (by simpa [keyList] using h.1)
    · simp only [alRemove, if_neg he, alGet, if_neg he]
      exact alGet_alRemove_self k t h.2

theorem alGet_mem {α : Type} (k : ℤ) :
    ∀ (l : List (ℤ × α)) (v : α), alGet k l = some v → (k, v) ∈ l
  | [], v, h => by simp [alGet] at h
  | (k', w) :: t, v, h => by
    by_cases he : k = k'
    · subst he
      have hw : alGet k ((k, w) :: t) = some w := by simp [alGet]
      rw [hw, Option.some.injEq] at h
      subst h
      exact List.mem_cons_self _ _
    · simp only [alGet, if_neg he] at h
      exact List.mem_cons_of_mem _ (alGet_mem k t v h)

theorem alUpdate_ne_nil {α : Type} (k : ℤ) (f : Option α → α) :
    ∀ l : List (ℤ × α), alUpdate k f l ≠ []
  | [] => by simp [alUpdate]
  | (k', v) :: t => by
    simp only [alUpdate]
    split_ifs <;> simp

theorem single_bit_clear {d : ℕ} (hd : d ∈ [1, 2, 4, 8, 0x10, 0x20, 0x40, 0x80]) (m : ℕ) :
    (m &&& (255 ^^^ d)) &&& d = 0 := by
  rw [Nat.and_assoc]
  have hz : (255 ^^^ d) &&& d = 0 := by
    simp only [List.mem_cons, List.not_mem_nil, or_false] at hd
    rcases hd with h | h | h | h | h | h | h | h <;> subst h <;> decide
  rw [hz, Nat.and_zero]

/-- C6 (spec-modelled, `Canvas::unset` is absent from the sources): `unset`
clears only the dot bit of `(x, y)` — an `is_set` immediately after
returns `false`; the row entry for that coordinate, when still present, is
nonempty; and the cell, when still present, has a nonzero mask equal to
the old mask with the dot bit cleared and an unchanged `z` (so a mask that
became 0 means the cell entry was removed). -/
theorem c6_unset_clears (c : Canvas) (x y : ℚ) (hwf : c.WF) :
    (c.unset x y).is_set x y = false ∧
    (∀ rowm, alGet (Canvas.pos x y).2 (c.unset x y).rows = some rowm → rowm ≠ []) ∧
    (∀ pix', (alGet (Canvas.pos x y).2 (c.unset x y).rows).bind (alGet (Canvas.pos x y).1)
        = some pix' →
      pix'.braille_offset ≠ 0 ∧
      ∃ pix, (alGet (Canvas.pos x y).2 c.rows).bind (alGet (Canvas.pos x y).1) = some pix ∧
        pix'.braille_offset = pix.braille_offset &&& (255 ^^^ braille_offset_at x y) ∧
        pix'.z = pix.z) := by
  obtain ⟨hnodr, hnodc⟩ := hwf
  have hbit := single_bit_clear (braille_offset_mem x y)
  cases h1 : alGet (Canvas.pos x y).2 c.rows with
  | none =>
    have hrows : (c.unset x y).rows = c.rows := by
      simp only [Canvas.unset, h1]
    refine ⟨?_, ?_, ?_⟩
    · simp [Canvas.is_set, hrows, h1]
    · intro rowm hm
      rw [hrows, h1] at hm
      exact absurd hm (by simp)
    · intro pix' hm
      rw [hrows, h1] at hm
      simp at hm
  | some rowm =>
    have hnodrow : (keyList rowm).Nodup :=
      hnodc _ (alGet_mem (Canvas.pos x y).2 c.rows rowm h1)
    cases h2 : alGet (Canvas.pos x y).1 rowm with
    | none =>
      by_cases hre : rowm = []
      · have hrows : (c.unset x y).rows = alRemove (Canvas.pos x y).2 c.rows := by
          simp only [Canvas.unset, h1, h2, if_pos hre]
        have hnone : alGet (Canvas.pos x y).2 (c.unset x y).rows = none := by
          rw [hrows]; exact alGet_alRemove_self _ c.rows hnodr
        refine ⟨?_, ?_, ?_⟩
        · simp [Canvas.is_set, hnone]
        · intro rm hm; rw [hnone] at hm; exact absurd hm (by simp)
        · intro pix' hm; rw [hnone] at hm; simp at hm
      · have hrows : (c.unset x y).rows =
            alUpdate (Canvas.pos x y).2 (fun _ => rowm) c.rows := by
          simp only [Canvas.unset, h1, h2, if_neg hre]
        have hsome : alGet (Canvas.pos x y).2 (c.unset x y).rows = some rowm := by
          rw [hrows, alGet_alUpdate_self]
        refine ⟨?_, ?_, ?_⟩
        · simp [Canvas.is_set, hsome, h2]
        · intro rm hm; rw [hsome] at hm; simp at hm; subst hm; exact hre
        · intro pix' hm
          rw [hsome] at hm
          simp only [Option.some_bind, h2] at hm
          exact absurd hm (by simp)
    | some pix =>
      by_cases hm0 : pix.braille_offset &&& (255 ^^^ braille_offset_at x y) = 0
      · by_cases hre : alRemove (Canvas.pos x y).1 rowm = []
        · have hrows : (c.unset x y).rows = alRemove (Canvas.pos x y).2 c.rows := by
            simp only [Canvas.unset, h1, h2, if_pos hm0, if_pos hre]
          have hnone : alGet (Canvas.pos x y).2 (c.unset x y).rows = none := by
            rw [hrows]; exact alGet_alRemove_self _ c.rows hnodr
          refine ⟨?_, ?_, ?_⟩
          · simp [Canvas.is_set, hnone]
          · intro rm hm; rw [hnone] at hm; exact absurd hm (by simp)
          · intro pix' hm; rw [hnone] at hm; simp at hm
        · have hrows : (c.unset x y).rows =
              alUpdate (Canvas.pos x y).2
                (fun _ => alRemove (Canvas.pos x y).1 rowm) c.rows := by
            simp only [Canvas.unset, h1, h2, if_pos hm0, if_neg hre]
          have hsome : alGet (Canvas.pos x y).2 (c.unset x y).rows =
              some (alRemove (Canvas.pos x y).1 rowm) := by
            rw [hrows, alGet_alUpdate_self]
          have hcell : alGet (Canvas.pos x y).1 (alRemove (Canvas.pos x y).1 rowm) = none :=
            alGet_alRemove_self _ rowm hnodrow
          refine ⟨?_, ?_, ?_⟩
          · simp [Canvas.is_set, hsome, hcell]
          · intro rm hm; rw [hsome] at hm; simp at hm; subst hm; exact hre
          · intro pix' hm
            rw [hsome] at hm
            simp only [Option.some_bind, hcell] at hm
            exact absurd hm (by simp)
      · have hrows : (c.unset x y).rows =
            alUpdate (Canvas.pos x y).2
              (fun _ => alUpdate (Canvas.pos x y).1
                (fun _ => ⟨pix.braille_offset &&& (255 ^^^ braille_offset_at x y), pix.z⟩)
                rowm) c.rows := by
          simp only [Canvas.unset, h1, h2, if_neg hm0,
            if_neg (alUpdate_ne_nil (Canvas.pos x y).1 _ rowm)]
        have hsome : alGet (Canvas.pos x y).2 (c.unset x y).rows =
            some (alUpdate (Canvas.pos x y).1
              (fun _ => ⟨pix.braille_offset &&& (255 ^^^ braille_offset_at x y), pix.z⟩)
              rowm) := by
          rw [hrows, alGet_alUpdate_self]
        have hcell : alGet (Canvas.pos x y).1
            (alUpdate (Canvas.pos x y).1
              (fun _ => ⟨pix.braille_offset &&& (255 ^^^ braille_offset_at x y), pix.z⟩)
              rowm) =
            some ⟨pix.braille_offset &&& (255 ^^^ braille_offset_at x y), pix.z⟩ := by
          rw [alGet_alUpdate_self]
        refine ⟨?_, ?_, ?_⟩
        · simp [Canvas.is_set, hsome, hcell, hbit]
        · intro rm hm
          rw [hsome] at hm
          simp only [Option.some.injEq] at hm
          subst hm
          exact alUpdate_ne_nil _ _ rowm
        · intro pix' hm
          rw [hsome] at hm
          simp only [Option.some_bind, hcell, Option.some.injEq] at hm
          subst hm
          exact ⟨hm0, pix, by simp [h1, h2], rfl, rfl⟩

/-- C6 witness: on a canvas holding the single dot of `(0, 0)`, `unset(0,0)`
followed by `is_set(0,0)` returns `false`. -/
theorem c6_witness :
    (Canvas.unset (Canvas.mk [(0, [(0, ⟨1, 0⟩)])] (some (0, 0))) 0 0).is_set 0 0 = false :=
  (c6_unset_clears (Canvas.mk [(0, [(0, ⟨1, 0⟩)])] (some (0, 0))) 0 0
    (by with_unfolding_all decide)).1

end Termesh
